import Mathlib

/-!
# Verification of the devdonalds recipe service

Shallow embedding of `src/backend/py_template/devdonalds.py`:
the name normalizer (`parse_handwriting`), the entry validator
(`validate_entry_data` / `process_ingredient` / `process_recipe` behind the
`/entry` route `create_entry`), and the expansion engine
(`calculate_recipe_summary` behind the `/summary` route, embedded as a fuelled
stack machine `run` over explicit machine states).

Modelling choices (documented where they matter):
* Python `dict`s become association lists; JSON values become the inductive
  `JVal` (booleans and `null` never appear in any claim and are omitted;
  `isinstance(x, int)` is matched by the `.int` constructor).
* Machine integers: `cookTime` is validated to be `≥ 0` and `quantity` to be
  `> 0`, so stored entities carry `Nat` fields, matching the data model
  ("non-negative integer" / "positive integer"); the raw request values are
  `Int` and converted after the sign checks, exactly where the source checks
  them.
* Python string methods are modelled over `List Char` with ASCII semantics
  (`str.isalpha` / `str.isspace` / `str.capitalize`); every claim only
  exercises ASCII input.
* The unbounded `while stack:` loop of `calculate_recipe_summary` becomes a
  fuelled machine: `run` returns `.out` when the fuel runs out, which is
  distinct from normal completion `.ok` and from the `ValueError` branch
  `.err` ("Missing item").
* Entity names in requests are strings per the data model (`name: string`);
  a non-string `name` would make the Python source raise an uncaught
  `AttributeError` inside `parse_handwriting` (observable as a rejection with
  no state change), modelled here as validation returning `none`.
-/

/-- JSON-ish request values (the payloads `request.get_json()` can deliver
that any claim exercises). -/
inductive JVal where
  | str (s : String)
  | int (n : Int)
  | list (l : List JVal)
  | dict (d : List (String × JVal))

/-- A JSON object: an association list of string keys to values. -/
abbrev Req := List (String × JVal)

/-- `d.get(k)` / `d[k]` on a Python dict (keys are unique in a Python dict,
so first-match lookup is exact). -/
def dget : Req → String → Option JVal
  | [], _ => none
  | (k, v) :: rest, key => if k = key then some v else dget rest key

/-- `RequiredItem` dataclass: a reference to an entity by (raw) name with a
positive quantity. -/
structure RequiredItem where
  name : String
  quantity : Nat
deriving DecidableEq, Repr

/-- The closed entity type stored in `recipe_store`: the `Ingredient` and
`Recipe` dataclasses (both extend `CookbookEntry`, which only carries
`name`). -/
inductive Entry where
  | ingredient (name : String) (cook_time : Nat)
  | recipe (name : String) (required_items : List RequiredItem)
deriving DecidableEq, Repr

/-- `recipe_store`: the process-wide dict from raw submitted name to entity. -/
abbrev Store := List (String × Entry)

/-- `key in recipe_store` / `recipe_store[key]` (first-match, as dict keys are
unique along every insertion path). -/
def lookup : Store → String → Option Entry
  | [], _ => none
  | (k, v) :: rest, key => if k = key then some v else lookup rest key

/-- `key in recipe_store` as a boolean. -/
def hasKey (store : Store) (key : String) : Bool :=
  (lookup store key).isSome

/-! ## Task 1: the name normalizer `parse_handwriting` -/

/-- Python `word.capitalize()`: first character upper-cased, the rest
lower-cased (ASCII model). -/
def pyCapitalize : List Char → List Char
  | [] => []
  | c :: cs => c.toUpper :: cs.map Char.toLower

/-- Python `s.strip().split()`: split on maximal whitespace runs, dropping
empty words.  `acc` holds the current word reversed. -/
def splitWordsAux : List Char → List Char → List (List Char)
  | [], acc => if acc = [] then [] else [acc.reverse]
  | c :: cs, acc =>
      if c.isWhitespace then
        if acc = [] then splitWordsAux cs []
        else acc.reverse :: splitWordsAux cs []
      else splitWordsAux cs (c :: acc)

/-- `' '.join(words)` on character lists. -/
def joinWords : List (List Char) → List Char
  | [] => []
  | [w] => w
  | w :: ws => w ++ ' ' :: joinWords ws

/-- `parse_handwriting` (the spec's `normalize`): replace `-`/`_` by spaces,
drop everything that is neither a letter nor whitespace, split into words,
capitalize each and join with single spaces; `None` when the input is
empty/whitespace-only or no word survives the filtering. -/
def parse_handwriting (recipeName : String) : Option String :=
  -- `if not recipeName or not recipeName.strip(): return None`
  if recipeName.toList.all Char.isWhitespace then none
  else
    let processed :=
      (recipeName.toList.map fun c => if c = '-' ∨ c = '_' then ' ' else c).filter
        fun c => c.isAlpha ∨ c.isWhitespace
    let words := splitWordsAux processed []
    if words = [] then none
    else some (String.mk (joinWords (words.map pyCapitalize)))

/-- Python `parse_handwriting(name) or name`: fall back to `d` when the
normalizer rejects (`None` is falsy; so would be an empty result, which
`parse_handwriting` in fact never produces). -/
def pyOrRaw (o : Option String) (d : String) : String :=
  match o with
  | some r => if r = "" then d else r
  | none => d

/-! ## Task 2: entry creation -/

/-- The `for item in data['requiredItems']` loop of `process_recipe`: checks
each element is a dict with `name` and `quantity`, `quantity` a positive int,
and the name not already seen in this same request (`seen_items`). -/
def processItems (seen : List String) : List JVal → Option (List RequiredItem)
  | [] => some []
  | item :: rest =>
      match item with
      | .dict fields =>
          match dget fields "name", dget fields "quantity" with
          | some (.str n), some (.int q) =>
              if q ≤ 0 then none
              else if n ∈ seen then none
              else
                match processItems (n :: seen) rest with
                | some rs => some (⟨n, q.toNat⟩ :: rs)
                | none => none
          | _, _ => none
      | _ => none

/-- `process_ingredient`: `cookTime` must be an int `≥ 0`; the built entity's
display name is `parse_handwriting(name) or name` and the raw name is the
store key. -/
def process_ingredient (data : Req) : Option (String × Entry) :=
  match dget data "cookTime" with
  | some (.int c) =>
      if c < 0 then none
      else
        match dget data "name" with
        | some (.str s) =>
            some (s, .ingredient (pyOrRaw (parse_handwriting s) s) c.toNat)
        | _ => none
  | _ => none

/-- `process_recipe`: `requiredItems` must be a list whose elements all pass
`processItems`; the display name falls back to the raw name exactly as in
`process_ingredient`. -/
def process_recipe (data : Req) : Option (String × Entry) :=
  match dget data "requiredItems" with
  | some (.list items) =>
      match processItems [] items with
      | some ritems =>
          match dget data "name" with
          | some (.str s) =>
              some (s, .recipe (pyOrRaw (parse_handwriting s) s) ritems)
          | _ => none
      | none => none
  | _ => none

/-- `data['name'] in recipe_store`: a non-string name is never a key of the
store, whose keys are the raw string names submitted at creation. -/
def nameInStore (store : Store) (nm : JVal) : Bool :=
  match nm with
  | .str s => hasKey store s
  | _ => false

/-- `validate_entry_data`: reject empty payloads, payloads missing `type` or
`name`, duplicate store keys, and unknown `type` tags; otherwise dispatch on
the type tag. -/
def validate_entry_data (store : Store) (data : Req) : Option (String × Entry) :=
  if data.isEmpty then none
  else
    match dget data "type", dget data "name" with
    | some ty, some nm =>
        -- `if data['name'] in recipe_store: return None`
        if nameInStore store nm then none
        else
          -- `data['type'] == 'ingredient'` / `== 'recipe'` (false for any
          -- non-string type tag, falling through to `return None`)
          match ty with
          | .str t =>
              if t = "ingredient" then process_ingredient data
              else if t = "recipe" then process_recipe data
              else none
          | _ => none
    | _, _ => none

/-- The `/entry` route `create_entry`: on successful validation insert the
entity keyed by the raw name and answer 200, otherwise answer 400 with the
store untouched. -/
def create_entry (store : Store) (data : Req) : Store × Nat :=
  match validate_entry_data store data with
  | none => (store, 400)
  | some (raw, entry) => ((raw, entry) :: store, 200)

/-! ## Task 3: the expansion engine -/

/-- The `Counter` of accumulated ingredient quantities, as an association
list in first-touch order. -/
abbrev Counts := List (String × Nat)

/-- The quantity a counter holds for a name (0 when absent). -/
def countOf : Counts → String → Nat
  | [], _ => 0
  | (k, v) :: rest, n => if k = n then v else countOf rest n

/-- `ingredient_counts[name] += m` on a `Counter`. -/
def bump : Counts → String → Nat → Counts
  | [], n, m => [(n, m)]
  | (k, v) :: rest, n, m =>
      if k = n then (k, v + m) :: rest else (k, v) :: bump rest n m

/-- The `for req_item in reversed(recipe.required_items)` loop: resolve each
required name against the store and push `(entity, multiplier × quantity)`
onto the stack (our stack lists are top-first, so a push is a cons); the
`ValueError f"Missing item: …"` becomes `.error`.  Iterating the reversed
list and pushing means the source order ends up top-first on the stack, so the
recursion handles the tail first; the first missing name in reversed source
order raises, exactly as in the source (any entities it had already pushed are
discarded with the whole computation, so they are not observable). -/
def pushItems (store : Store) (m : Nat) :
    List RequiredItem → List (Entry × Nat) → Except String (List (Entry × Nat))
  | [], st => .ok st
  | it :: rest, st =>
      match pushItems store m rest st with
      | .error e => .error e
      | .ok st' =>
          match lookup store it.name with
          | none => .error ("Missing item: " ++ it.name)
          | some ent => .ok ((ent, m * it.quantity) :: st')

/-- A state of the `while stack:` loop: the work list (top first), the
ingredient counter and the running total cooking time. -/
structure MState where
  stack : List (Entry × Nat)
  counts : Counts
  total : Nat
deriving DecidableEq, Repr

/-- Outcome of one loop iteration check: loop finished, `ValueError`, or the
next state. -/
inductive StepRes where
  | done (counts : Counts) (total : Nat)
  | err (msg : String)
  | next (s : MState)
deriving DecidableEq, Repr

/-- One iteration of the `while stack:` loop (or its exit when the stack is
empty): pop `(entity, multiplier)`; an `Ingredient` bumps its counter and the
total time, a `Recipe` pushes its (resolved) required items. -/
def step (store : Store) (s : MState) : StepRes :=
  match s.stack with
  | [] => .done s.counts s.total
  | (e, m) :: rest =>
      match e with
      | .ingredient nm ct => .next ⟨rest, bump s.counts nm m, s.total + ct * m⟩
      | .recipe _ items =>
          match pushItems store m items rest with
          | .error msg => .err msg
          | .ok st' => .next ⟨st', s.counts, s.total⟩

/-- Outcome of running the loop under a fuel bound: normal completion,
`ValueError`, or fuel exhausted (the source loop is unbounded; `.out` marks
the runs the fuel cannot finish). -/
inductive RunRes where
  | ok (counts : Counts) (total : Nat)
  | err (msg : String)
  | out
deriving DecidableEq, Repr

/-- The fuelled `while stack:` loop of `calculate_recipe_summary`. -/
def run (store : Store) (s : MState) : Nat → RunRes
  | 0 => .out
  | f + 1 =>
      match step store s with
      | .done c t => .ok c t
      | .err msg => .err msg
      | .next s' => run store s' f

/-- The state after `k` loop iterations (`none` once the loop has exited or
raised), used to observe the work list itself. -/
def stepN (store : Store) (s : MState) : Nat → Option MState
  | 0 => some s
  | k + 1 =>
      match step store s with
      | .next s' => stepN store s' k
      | _ => none

/-- Python `<=` on strings: lexicographic comparison by code point. -/
def strLeB : List Char → List Char → Bool
  | [], _ => true
  | _ :: _, [] => false
  | a :: as, b :: bs =>
      if a.val < b.val then true
      else if a.val = b.val then strLeB as bs
      else false

/-- Insert into a list sorted by name. -/
def insertSorted (p : String × Nat) : Counts → Counts
  | [] => [p]
  | q :: rest =>
      if strLeB p.1.toList q.1.toList then p :: q :: rest
      else q :: insertSorted p rest

/-- `sorted(ingredient_counts.items())`: ascending by name (a `Counter` has
unique keys, so the tuple comparison never reaches the quantity). -/
def sortPairs (l : Counts) : Counts :=
  l.foldr insertSorted []

/-- The JSON summary `calculate_recipe_summary` returns. -/
structure Summary where
  name : String
  cookTime : Nat
  ingredients : List (String × Nat)
deriving DecidableEq, Repr

/-- The `/summary` route: reject a missing/empty name, an absent key, or an
entry that is not a `Recipe`; otherwise run the traversal (under the given
fuel) and render the sorted summary.  Both the `ValueError` of a missing
reference and fuel exhaustion surface as `none` (the route's 400). -/
def summarize (store : Store) (name : String) (fuel : Nat) : Option Summary :=
  if name = "" then none
  else
    match lookup store name with
    | none => none
    | some (.ingredient _ _) => none
    | some (.recipe dn items) =>
        match run store ⟨[(.recipe dn items, 1)], [], 0⟩ fuel with
        | .ok c t => some ⟨dn, t, sortPairs c⟩
        | _ => none

/-! ## Derived notions used by the specification's claims -/

/-- Resolve a name against the store, with an irrelevant default (only ever
used under an `isSome` hypothesis). -/
def resolveD (store : Store) (n : String) : Entry :=
  (lookup store n).getD (.ingredient "" 0)

/-- The stack fragment a recipe's `required_items` contribute under an outer
multiplier `m`: source order top-first, each multiplier scaled by the item's
quantity (what `pushItems` leaves when every reference resolves). -/
def stackMap (store : Store) (m : Nat) (items : List RequiredItem) :
    List (Entry × Nat) :=
  items.map fun it => (resolveD store it.name, m * it.quantity)

/-- Scale every multiplier on a stack by `k`. -/
def scaleStack (k : Nat) (st : List (Entry × Nat)) : List (Entry × Nat) :=
  st.map fun p => (p.1, k * p.2)

/-- Direct dependency of the composition graph: `childRel store b a` holds
when the store entry keyed `a` is a recipe one of whose required items is
named `b`. -/
def childRel (store : Store) (b a : String) : Prop :=
  ∃ dn items it, lookup store a = some (.recipe dn items) ∧ it ∈ items ∧ it.name = b

/-- Every reference of every recipe in the store resolves. -/
def Resolvable (store : Store) : Prop :=
  ∀ a dn items, lookup store a = some (.recipe dn items) →
    ∀ it ∈ items, (lookup store it.name).isSome = true

/-! ## Concrete fixtures named by the claims -/

/-- The spec's expansion example: `Egg`(5), `Flour`(2),
`Batter` = `Egg`×2 + `Flour`×1, `Pancake` = `Batter`×3. -/
def storeC1 : Store :=
  [("Egg", .ingredient "Egg" 5), ("Flour", .ingredient "Flour" 2),
   ("Batter", .recipe "Batter" [⟨"Egg", 2⟩, ⟨"Flour", 1⟩]),
   ("Pancake", .recipe "Pancake" [⟨"Batter", 3⟩])]

/-- The spec's missing-reference example: `Soup` requires `Stock`×1 but
`Stock` was never created. -/
def soupStore : Store :=
  [("Soup", .recipe "Soup" [⟨"Stock", 1⟩])]

/-- A recipe that (directly, hence transitively) requires itself, plus an
ingredient, so the work list grows without bound. -/
def recA : Entry := .recipe "A" [⟨"A", 1⟩, ⟨"B", 1⟩]

/-- The harmless ingredient the cyclic recipe also requires. -/
def ingB : Entry := .ingredient "B" 0

/-- A store with a cyclic composition graph. -/
def cycStore : Store := [("A", recA), ("B", ingB)]

/-- The machine state after `k` iterations of the traversal of `cycStore`
from `A`: the self-referencing recipe stays on top and one copy of the
ingredient accumulates below per iteration. -/
def cycState (k : Nat) : MState :=
  ⟨(recA, 1) :: List.replicate k (ingB, 1), [], 0⟩

/-! ## General lemmas about the traversal machine -/

theorem step_nil (store : Store) (c : Counts) (t : Nat) :
    step store ⟨[], c, t⟩ = .done c t := rfl

theorem step_ing (store : Store) (nm : String) (ct m : Nat)
    (rest : List (Entry × Nat)) (c : Counts) (t : Nat) :
    step store ⟨(Entry.ingredient nm ct, m) :: rest, c, t⟩
      = .next ⟨rest, bump c nm m, t + ct * m⟩ := rfl

theorem step_rec (store : Store) (dn : String) (items : List RequiredItem)
    (m : Nat) (rest : List (Entry × Nat)) (c : Counts) (t : Nat) :
    step store ⟨(Entry.recipe dn items, m) :: rest, c, t⟩
      = (match pushItems store m items rest with
         | .error msg => .err msg
         | .ok st' => .next ⟨st', c, t⟩) := rfl

theorem countOf_bump (c : Counts) (n : String) (m : Nat) (x : String) :
    countOf (bump c n m) x = countOf c x + (if x = n then m else 0) := by
  induction c with
  | nil =>
      simp only [bump, countOf]
      by_cases h : x = n
      · rw [if_pos h.symm, if_pos h, Nat.zero_add]
      · rw [if_neg (fun hh => h hh.symm), if_neg h, Nat.add_zero]
  | cons p rest ih =>
      obtain ⟨k, v⟩ := p
      by_cases hk : k = n
      · subst hk
        simp only [bump, if_pos rfl, countOf]
        by_cases hx : k = x
        · rw [if_pos hx, if_pos hx, if_pos hx.symm]
        · rw [if_neg hx, if_neg hx, if_neg (fun hh => hx hh.symm), Nat.add_zero]
      · simp only [bump, if_neg hk, countOf]
        by_cases hx : k = x
        · rw [if_pos hx, if_pos hx, if_neg (fun hh : x = n => hk (hx.trans hh)),
            Nat.add_zero]
        · rw [if_neg hx, if_neg hx, ih]

theorem run_mono {store : Store} {s : MState} {f : Nat} {c : Counts} {t : Nat}
    (h : run store s f = .ok c t) :
    ∀ f', f ≤ f' → run store s f' = .ok c t := by
  induction f generalizing s with
  | zero => simp [run] at h
  | succ f ih =>
      intro f' hf'
      obtain ⟨f'', rfl⟩ : ∃ f'', f' = f'' + 1 := by
        cases f' with
        | zero => omega
        | succ f'' => exact ⟨f'', rfl⟩
      rw [run] at h ⊢
      cases hstep : step store s with
      | done c0 t0 => rw [hstep] at h; exact h
      | err msg => rw [hstep] at h; cases h
      | next s' =>
          rw [hstep] at h
          exact ih h f'' (by omega)

theorem pushItems_ext {store : Store} {m : Nat} {items : List RequiredItem}
    {st st' ext : List (Entry × Nat)}
    (h : pushItems store m items st = .ok st') :
    pushItems store m items (st ++ ext) = .ok (st' ++ ext) := by
  induction items generalizing st' with
  | nil => cases h; rfl
  | cons it rest ih =>
      rw [pushItems] at h
      cases hr : pushItems store m rest st with
      | error e => rw [hr] at h; cases h
      | ok st0 =>
          rw [hr] at h
          cases hl : lookup store it.name with
          | none => rw [hl] at h; cases h
          | some ent =>
              rw [hl] at h
              cases h
              simp only [pushItems, ih hr, hl, List.cons_append]

theorem pushItems_ok_resolves {store : Store} {m : Nat} {items : List RequiredItem}
    {st st' : List (Entry × Nat)}
    (h : pushItems store m items st = .ok st') :
    ∀ it ∈ items, (lookup store it.name).isSome = true := by
  induction items generalizing st' with
  | nil => intro it hit; cases hit
  | cons it0 rest ih =>
      intro it hit
      rw [pushItems] at h
      cases hr : pushItems store m rest st with
      | error e => rw [hr] at h; cases h
      | ok st0 =>
          rw [hr] at h
          cases hl : lookup store it0.name with
          | none => rw [hl] at h; cases h
          | some ent =>
              cases hit with
              | head => rw [hl]; rfl
              | tail _ hmem => exact ih hr it hmem

theorem pushItems_ok_eq {store : Store} {m : Nat} {items : List RequiredItem}
    {st : List (Entry × Nat)}
    (h : ∀ it ∈ items, (lookup store it.name).isSome = true) :
    pushItems store m items st = .ok (stackMap store m items ++ st) := by
  induction items with
  | nil => rfl
  | cons it rest ih =>
      have hrest : ∀ it' ∈ rest, (lookup store it'.name).isSome = true :=
        fun it' h' => h it' (List.mem_cons_of_mem _ h')
      have hit := h it (List.mem_cons_self _ _)
      obtain ⟨e, he⟩ := Option.isSome_iff_exists.mp hit
      rw [pushItems, ih hrest, he]
      simp [stackMap, resolveD, he]

theorem pushItems_missing {store : Store} {items : List RequiredItem}
    (h : ∃ it ∈ items, lookup store it.name = none) :
    ∀ m st, ∃ msg, pushItems store m items st = .error msg := by
  induction items with
  | nil => obtain ⟨it, hit, _⟩ := h; cases hit
  | cons it0 rest ih =>
      intro m st
      cases hr : pushItems store m rest st with
      | error e => exact ⟨e, by rw [pushItems, hr]⟩
      | ok st0 =>
          obtain ⟨it, hit, hnone⟩ := h
          cases hit with
          | head =>
              exact ⟨"Missing item: " ++ it0.name, by rw [pushItems, hr, hnone]⟩
          | tail _ hmem =>
              have := pushItems_ok_resolves hr it hmem
              rw [hnone] at this
              cases this

theorem run_append {store : Store} {s1 s2 : List (Entry × Nat)} {c : Counts}
    {t : Nat} {f1 f2 : Nat} {c1 c2 : Counts} {t1 t2 : Nat}
    (h1 : run store ⟨s1, c, t⟩ f1 = .ok c1 t1)
    (h2 : run store ⟨s2, c1, t1⟩ f2 = .ok c2 t2) :
    run store ⟨s1 ++ s2, c, t⟩ (f1 + f2) = .ok c2 t2 := by
  induction f1 generalizing s1 c t with
  | zero => simp [run] at h1
  | succ f1 ih =>
      cases s1 with
      | nil =>
          simp only [run, step_nil, RunRes.ok.injEq] at h1
          obtain ⟨rfl, rfl⟩ := h1
          simpa using run_mono h2 (f1 + 1 + f2) (by omega)
      | cons p rest =>
          obtain ⟨e, m⟩ := p
          cases e with
          | ingredient nm ct =>
              simp only [run, step_ing] at h1
              have hgoal := ih h1
              rw [show f1 + 1 + f2 = (f1 + f2) + 1 by omega, List.cons_append, run, step_ing]
              exact hgoal
          | recipe dn items =>
              cases hp : pushItems store m items rest with
              | error msg =>
                  simp only [run, step_rec, hp] at h1
                  exact RunRes.noConfusion h1
              | ok st' =>
                  simp only [run, step_rec, hp] at h1
                  have hgoal := ih h1
                  rw [show f1 + 1 + f2 = (f1 + f2) + 1 by omega, List.cons_append, run,
                    step_rec, pushItems_ext hp]
                  exact hgoal

theorem scaleStack_cons (k : Nat) (p : Entry × Nat) (l : List (Entry × Nat)) :
    scaleStack k (p :: l) = (p.1, k * p.2) :: scaleStack k l := rfl

theorem pushItems_scale {store : Store} {m : Nat} {items : List RequiredItem}
    {st st' : List (Entry × Nat)} (k : Nat)
    (h : pushItems store m items st = .ok st') :
    pushItems store (k * m) items (scaleStack k st) = .ok (scaleStack k st') := by
  induction items generalizing st' with
  | nil => cases h; rfl
  | cons it rest ih =>
      rw [pushItems] at h
      cases hr : pushItems store m rest st with
      | error e => rw [hr] at h; cases h
      | ok st0 =>
          rw [hr] at h
          cases hl : lookup store it.name with
          | none => rw [hl] at h; cases h
          | some ent =>
              rw [hl] at h
              cases h
              simp only [pushItems, ih hr, hl, scaleStack_cons]
              rw [Nat.mul_assoc]

theorem run_scale {store : Store} {st : List (Entry × Nat)} {c1 : Counts}
    {t1 f : Nat} {c1' : Counts} {t1' : Nat}
    (h : run store ⟨st, c1, t1⟩ f = .ok c1' t1') :
    ∀ k (c2 : Counts) (t2 : Nat), ∃ c2' t2',
      run store ⟨scaleStack k st, c2, t2⟩ f = .ok c2' t2' ∧
      t2' + k * t1 = t2 + k * t1' ∧
      ∀ n, countOf c2' n + k * countOf c1 n = countOf c2 n + k * countOf c1' n := by
  induction f generalizing st c1 t1 with
  | zero => simp [run] at h
  | succ f ih =>
      intro k c2 t2
      cases st with
      | nil =>
          simp only [run, step_nil, RunRes.ok.injEq] at h
          obtain ⟨rfl, rfl⟩ := h
          refine ⟨c2, t2, ?_, by omega, fun n => by omega⟩
          simp [scaleStack, run, step_nil]
      | cons p rest =>
          obtain ⟨e, m⟩ := p
          cases e with
          | ingredient nm ct =>
              simp only [run, step_ing] at h
              obtain ⟨c2', t2', hrun, ht, hc⟩ :=
                ih h k (bump c2 nm (k * m)) (t2 + ct * (k * m))
              refine ⟨c2', t2', ?_, ?_, ?_⟩
              · show run store ⟨scaleStack k ((Entry.ingredient nm ct, m) :: rest),
                    c2, t2⟩ (f + 1) = .ok c2' t2'
                rw [scaleStack_cons, run, step_ing]
                exact hrun
              · have hexp : k * (t1 + ct * m) = k * t1 + ct * (k * m) := by ring
                rw [hexp] at ht
                omega
              · intro n
                have hcn := hc n
                rw [countOf_bump, countOf_bump] at hcn
                by_cases hn : n = nm
                · rw [if_pos hn, if_pos hn] at hcn
                  have hexp : k * (countOf c1 n + m) = k * countOf c1 n + k * m := by
                    ring
                  rw [hexp] at hcn
                  omega
                · rw [if_neg hn, if_neg hn, Nat.add_zero, Nat.add_zero] at hcn
                  omega
          | recipe dn items =>
              cases hp : pushItems store m items rest with
              | error msg =>
                  simp only [run, step_rec, hp] at h
                  exact RunRes.noConfusion h
              | ok st' =>
                  simp only [run, step_rec, hp] at h
                  obtain ⟨c2', t2', hrun, ht, hc⟩ := ih h k c2 t2
                  refine ⟨c2', t2', ?_, ht, hc⟩
                  show run store ⟨scaleStack k ((Entry.recipe dn items, m) :: rest),
                      c2, t2⟩ (f + 1) = .ok c2' t2'
                  rw [scaleStack_cons, run, step_rec, pushItems_scale k hp]
                  exact hrun

theorem scaleStack_one (st : List (Entry × Nat)) : scaleStack 1 st = st := by
  induction st with
  | nil => rfl
  | cons p rest ih => simp [scaleStack_cons, Nat.one_mul, ih]

theorem run_shift {store : Store} {st : List (Entry × Nat)} {c1 : Counts}
    {t1 f : Nat} {c1' : Counts} {t1' : Nat}
    (h : run store ⟨st, c1, t1⟩ f = .ok c1' t1') :
    ∀ (c2 : Counts) (t2 : Nat), ∃ c2' t2',
      run store ⟨st, c2, t2⟩ f = .ok c2' t2' ∧
      t2' + t1 = t2 + t1' ∧
      ∀ n, countOf c2' n + countOf c1 n = countOf c2 n + countOf c1' n := by
  intro c2 t2
  obtain ⟨c2', t2', hrun, ht, hc⟩ := run_scale h 1 c2 t2
  rw [scaleStack_one] at hrun
  refine ⟨c2', t2', hrun, by omega, fun n => by have := hc n; omega⟩

/-! ## Termination of the traversal on acyclic stores -/

theorem resolveD_lookup {store : Store} {n : String}
    (h : (lookup store n).isSome = true) :
    lookup store n = some (resolveD store n) := by
  cases hl : lookup store n with
  | none => rw [hl] at h; cases h
  | some e => rw [resolveD, hl]; rfl

theorem term_stack {store : Store} (l : List (Entry × Nat))
    (h : ∀ p ∈ l, ∀ (c : Counts) (t : Nat), ∃ f c' t',
      run store ⟨[p], c, t⟩ f = .ok c' t') :
    ∀ (c : Counts) (t : Nat), ∃ f c' t', run store ⟨l, c, t⟩ f = .ok c' t' := by
  induction l with
  | nil => exact fun c t => ⟨1, c, t, rfl⟩
  | cons p rest ih =>
      intro c t
      obtain ⟨f1, c1, t1, h1⟩ := h p (List.mem_cons_self _ _) c t
      obtain ⟨f2, c2, t2, h2⟩ :=
        ih (fun q hq => h q (List.mem_cons_of_mem _ hq)) c1 t1
      exact ⟨f1 + f2, c2, t2, run_append h1 h2⟩

theorem term_single {store : Store} {a : String}
    (hacc : Acc (childRel store) a) (hres : Resolvable store) :
    ∀ e, lookup store a = some e →
      ∀ (m : Nat) (c : Counts) (t : Nat), ∃ f c' t',
        run store ⟨[(e, m)], c, t⟩ f = .ok c' t' := by
  induction hacc with
  | intro a _ ih =>
      intro e he m c t
      cases e with
      | ingredient nm ct => exact ⟨2, bump c nm m, t + ct * m, rfl⟩
      | recipe dn items =>
          have hitems : ∀ it ∈ items, (lookup store it.name).isSome = true :=
            hres a dn items he
          have hpush : pushItems store m items [] = .ok (stackMap store m items) := by
            have := @pushItems_ok_eq store m items [] hitems
            rwa [List.append_nil] at this
          have hsing : ∀ p ∈ stackMap store m items, ∀ (c0 : Counts) (t0 : Nat),
              ∃ f c' t', run store ⟨[p], c0, t0⟩ f = .ok c' t' := by
            intro p hp c0 t0
            obtain ⟨it, hit, rfl⟩ := List.mem_map.mp hp
            have hchild : childRel store it.name a := ⟨dn, items, it, he, hit, rfl⟩
            have hlook := resolveD_lookup (hitems it hit)
            exact ih it.name hchild (resolveD store it.name) hlook _ c0 t0
          obtain ⟨F, c', t', hF⟩ := term_stack (stackMap store m items) hsing c t
          refine ⟨F + 1, c', t', ?_⟩
          rw [run, step_rec, hpush]
          exact hF

/-! ## The cyclic fixture never finishes and its work list grows forever -/

theorem cyc_step (k : Nat) :
    step cycStore (cycState k) = .next (cycState (k + 1)) := by
  show step cycStore ⟨(recA, 1) :: List.replicate k (ingB, 1), [], 0⟩
      = .next (cycState (k + 1))
  rw [show recA = Entry.recipe "A" [⟨"A", 1⟩, ⟨"B", 1⟩] from rfl, step_rec]
  have hpush : pushItems cycStore 1 [⟨"A", 1⟩, ⟨"B", 1⟩]
      (List.replicate k (ingB, 1))
      = .ok ((recA, 1) :: (ingB, 1) :: List.replicate k (ingB, 1)) := rfl
  rw [hpush]
  show StepRes.next ⟨(recA, 1) :: (ingB, 1) :: List.replicate k (ingB, 1), [], 0⟩
      = .next (cycState (k + 1))
  rw [cycState, List.replicate_succ]

theorem cyc_stepN (k j : Nat) :
    stepN cycStore (cycState j) k = some (cycState (j + k)) := by
  induction k generalizing j with
  | zero => rfl
  | succ k ih =>
      simp only [stepN, cyc_step]
      rw [ih (j + 1), show j + 1 + k = j + (k + 1) by omega]

theorem cyc_run_out (f j : Nat) : run cycStore (cycState j) f = .out := by
  induction f generalizing j with
  | zero => rfl
  | succ f ih =>
      simp only [run, cyc_step]
      exact ih (j + 1)

/-! ## Lemmas about entry creation -/

theorem dget_ne_nil {d : Req} {k : String} {v : JVal} (h : dget d k = some v) :
    d.isEmpty = false := by
  cases d with
  | nil => cases h
  | cons p rest => rfl

theorem validate_no_name {store : Store} {d : Req}
    (h : dget d "name" = none) : validate_entry_data store d = none := by
  rw [validate_entry_data]
  split
  · rfl
  · rw [h]
    cases dget d "type" <;> rfl

theorem validate_no_type {store : Store} {d : Req}
    (h : dget d "type" = none) : validate_entry_data store d = none := by
  rw [validate_entry_data]
  split
  · rfl
  · rw [h]

theorem validate_eq_main {store : Store} {d : Req} {ty nm : JVal}
    (hne : d.isEmpty = false)
    (hty : dget d "type" = some ty) (hname : dget d "name" = some nm) :
    validate_entry_data store d =
      if nameInStore store nm = true then none
      else
        match ty with
        | .str t =>
            if t = "ingredient" then process_ingredient d
            else if t = "recipe" then process_recipe d
            else none
        | _ => none := by
  rw [validate_entry_data, hne]
  simp only [Bool.false_eq_true, if_false, hty, hname]

theorem validate_dup {store : Store} {d : Req} {ty : JVal} {s : String}
    (hty : dget d "type" = some ty) (hname : dget d "name" = some (.str s))
    (hkey : hasKey store s = true) : validate_entry_data store d = none := by
  rw [validate_eq_main (dget_ne_nil hty) hty hname]
  simp [nameInStore, hkey]

theorem validate_bad_type {store : Store} {d : Req} {ty : JVal}
    (hty : dget d "type" = some ty)
    (hing : ty ≠ .str "ingredient") (hrec : ty ≠ .str "recipe") :
    validate_entry_data store d = none := by
  cases hname : dget d "name" with
  | none => exact validate_no_name hname
  | some nm =>
      rw [validate_eq_main (dget_ne_nil hty) hty hname]
      split
      · rfl
      · cases ty with
        | str t =>
            have h1 : ¬ t = "ingredient" := fun hh => hing (by rw [hh])
            have h2 : ¬ t = "recipe" := fun hh => hrec (by rw [hh])
            simp only [if_neg h1, if_neg h2]
        | int n => rfl
        | list l => rfl
        | dict fs => rfl

theorem process_ingredient_ok {d : Req} {c : Int} {s : String}
    (hct : dget d "cookTime" = some (.int c)) (hc : ¬ c < 0)
    (hname : dget d "name" = some (.str s)) :
    process_ingredient d
      = some (s, .ingredient (pyOrRaw (parse_handwriting s) s) c.toNat) := by
  simp only [process_ingredient, hct, if_neg hc, hname]

theorem process_recipe_ok {d : Req} {items : List JVal}
    {ritems : List RequiredItem} {s : String}
    (hri : dget d "requiredItems" = some (.list items))
    (hpi : processItems [] items = some ritems)
    (hname : dget d "name" = some (.str s)) :
    process_recipe d
      = some (s, .recipe (pyOrRaw (parse_handwriting s) s) ritems) := by
  simp only [process_recipe, hri, hpi, hname]

theorem validate_ingredient_ok {store : Store} {d : Req} {c : Int} {s : String}
    (hty : dget d "type" = some (.str "ingredient"))
    (hname : dget d "name" = some (.str s))
    (hct : dget d "cookTime" = some (.int c)) (hc : ¬ c < 0)
    (hkey : hasKey store s = false) :
    validate_entry_data store d
      = some (s, .ingredient (pyOrRaw (parse_handwriting s) s) c.toNat) := by
  rw [validate_eq_main (dget_ne_nil hty) hty hname]
  rw [show nameInStore store (JVal.str s) = hasKey store s from rfl, hkey]
  show (if false = true then none
    else if ("ingredient" : String) = "ingredient" then process_ingredient d
    else if ("ingredient" : String) = "recipe" then process_recipe d
    else none) = _
  rw [if_neg Bool.false_ne_true,
    if_pos (rfl : ("ingredient" : String) = "ingredient")]
  exact process_ingredient_ok hct hc hname

theorem validate_recipe_ok {store : Store} {d : Req} {items : List JVal}
    {ritems : List RequiredItem} {s : String}
    (hty : dget d "type" = some (.str "recipe"))
    (hname : dget d "name" = some (.str s))
    (hri : dget d "requiredItems" = some (.list items))
    (hpi : processItems [] items = some ritems)
    (hkey : hasKey store s = false) :
    validate_entry_data store d
      = some (s, .recipe (pyOrRaw (parse_handwriting s) s) ritems) := by
  rw [validate_eq_main (dget_ne_nil hty) hty hname]
  rw [show nameInStore store (JVal.str s) = hasKey store s from rfl, hkey]
  show (if false = true then none
    else if ("recipe" : String) = "ingredient" then process_ingredient d
    else if ("recipe" : String) = "recipe" then process_recipe d
    else none) = _
  rw [if_neg Bool.false_ne_true,
    if_neg (by decide : ¬ ("recipe" : String) = "ingredient"),
    if_pos (rfl : ("recipe" : String) = "recipe")]
  exact process_recipe_ok hri hpi hname

theorem create_entry_of_validate_none {store : Store} {d : Req}
    (h : validate_entry_data store d = none) :
    create_entry store d = (store, 400) := by
  rw [create_entry, h]

theorem create_entry_of_validate_some {store : Store} {d : Req} {raw : String}
    {e : Entry} (h : validate_entry_data store d = some (raw, e)) :
    create_entry store d = ((raw, e) :: store, 200) := by
  rw [create_entry, h]

theorem process_ingredient_name {d : Req} {raw : String} {e : Entry}
    (h : process_ingredient d = some (raw, e)) :
    dget d "name" = some (.str raw) := by
  cases hct : dget d "cookTime" with
  | none => simp [process_ingredient, hct] at h
  | some v =>
      cases v with
      | str t => simp [process_ingredient, hct] at h
      | list l => simp [process_ingredient, hct] at h
      | dict fs => simp [process_ingredient, hct] at h
      | int c =>
          by_cases hc : c < 0
          · simp [process_ingredient, hct, hc] at h
          · cases hname : dget d "name" with
            | none => simp [process_ingredient, hct, hc, hname] at h
            | some nv =>
                cases nv with
                | str t =>
                    simp only [process_ingredient, hct, if_neg hc, hname,
                      Option.some.injEq, Prod.mk.injEq] at h
                    rw [h.1]
                | int n => simp [process_ingredient, hct, hc, hname] at h
                | list l => simp [process_ingredient, hct, hc, hname] at h
                | dict fs => simp [process_ingredient, hct, hc, hname] at h

theorem process_recipe_name {d : Req} {raw : String} {e : Entry}
    (h : process_recipe d = some (raw, e)) :
    dget d "name" = some (.str raw) := by
  cases hri : dget d "requiredItems" with
  | none => simp [process_recipe, hri] at h
  | some v =>
      cases v with
      | str t => simp [process_recipe, hri] at h
      | int n => simp [process_recipe, hri] at h
      | dict fs => simp [process_recipe, hri] at h
      | list items =>
          cases hpi : processItems [] items with
          | none => simp [process_recipe, hri, hpi] at h
          | some ritems =>
              cases hname : dget d "name" with
              | none => simp [process_recipe, hri, hpi, hname] at h
              | some nv =>
                  cases nv with
                  | str t =>
                      simp only [process_recipe, hri, hpi, hname,
                        Option.some.injEq, Prod.mk.injEq] at h
                      rw [h.1]
                  | int n => simp [process_recipe, hri, hpi, hname] at h
                  | list l => simp [process_recipe, hri, hpi, hname] at h
                  | dict fs => simp [process_recipe, hri, hpi, hname] at h

theorem validate_some_name {store : Store} {d : Req} {raw : String} {e : Entry}
    (h : validate_entry_data store d = some (raw, e)) :
    dget d "name" = some (.str raw) ∧ hasKey store raw = false := by
  cases hne : d.isEmpty with
  | true => rw [validate_entry_data, hne] at h; cases h
  | false =>
      cases hty : dget d "type" with
      | none => rw [validate_no_type hty] at h; cases h
      | some ty =>
          cases hname : dget d "name" with
          | none => rw [validate_no_name hname] at h; cases h
          | some nm =>
              rw [validate_eq_main hne hty hname] at h
              cases hkey : nameInStore store nm with
              | true => simp only [hkey, if_pos rfl] at h; cases h
              | false =>
                  simp only [hkey, Bool.false_eq_true, if_false] at h
                  cases ty with
                  | int n => cases h
                  | list l => cases h
                  | dict fs => cases h
                  | str t =>
                      have hfin : dget d "name" = some (.str raw) := by
                        by_cases h1 : t = "ingredient"
                        · simp only [if_pos h1] at h
                          exact process_ingredient_name h
                        · by_cases h2 : t = "recipe"
                          · simp only [if_neg h1, if_pos h2] at h
                            exact process_recipe_name h
                          · simp only [if_neg h1, if_neg h2] at h
                            cases h
                      have hsome : some nm = some (.str raw) :=
                        hname.symm.trans hfin
                      refine ⟨hsome, ?_⟩
                      have hnm : nm = .str raw := by injection hsome
                      rw [hnm] at hkey
                      exact hkey

theorem create_entry_200 {store : Store} {d : Req} {st' : Store}
    (h : create_entry store d = (st', 200)) :
    ∃ raw e, validate_entry_data store d = some (raw, e) ∧
      st' = (raw, e) :: store := by
  rw [create_entry] at h
  cases hv : validate_entry_data store d with
  | none => rw [hv] at h; simp at h
  | some p =>
      obtain ⟨raw, e⟩ := p
      rw [hv] at h
      simp only [Prod.mk.injEq] at h
      exact ⟨raw, e, rfl, h.1.symm⟩

/-! ## Lemmas about the duplicate-item check inside `process_recipe` -/

theorem processItems_cons_step (item : JVal) (rest : List JVal)
    (seen : List String) :
    processItems seen (item :: rest) = none ∨
    ∃ fields n q, item = .dict fields ∧
      dget fields "name" = some (.str n) ∧
      dget fields "quantity" = some (.int q) ∧ ¬ q ≤ 0 ∧ n ∉ seen ∧
      processItems seen (item :: rest) =
        (match processItems (n :: seen) rest with
         | some rs => some (⟨n, q.toNat⟩ :: rs)
         | none => none) := by
  cases item with
  | str t => exact Or.inl rfl
  | int n => exact Or.inl rfl
  | list l => exact Or.inl rfl
  | dict fields =>
      cases hn : dget fields "name" with
      | none => exact Or.inl (by simp [processItems, hn])
      | some nv =>
          cases nv with
          | int n => exact Or.inl (by simp [processItems, hn])
          | list l => exact Or.inl (by simp [processItems, hn])
          | dict fs => exact Or.inl (by simp [processItems, hn])
          | str n =>
              cases hq : dget fields "quantity" with
              | none => exact Or.inl (by simp [processItems, hn, hq])
              | some qv =>
                  cases qv with
                  | str t => exact Or.inl (by simp [processItems, hn, hq])
                  | list l => exact Or.inl (by simp [processItems, hn, hq])
                  | dict fs => exact Or.inl (by simp [processItems, hn, hq])
                  | int q =>
                      by_cases hq0 : q ≤ 0
                      · exact Or.inl (by simp [processItems, hn, hq, hq0])
                      · by_cases hseen : n ∈ seen
                        · exact Or.inl (by simp [processItems, hn, hq, hq0, hseen])
                        · refine Or.inr ⟨fields, n, q, rfl, hn, hq, hq0, hseen, ?_⟩
                          simp only [processItems, hn, hq, if_neg hq0,
                            if_neg hseen]

theorem processItems_seen_mem {n : String} (items : List JVal) :
    ∀ seen, n ∈ seen →
      (∃ item ∈ items, ∃ fields, item = .dict fields ∧
        dget fields "name" = some (.str n)) →
      processItems seen items = none := by
  induction items with
  | nil =>
      intro seen _ hex
      obtain ⟨item, him, _⟩ := hex
      cases him
  | cons item0 rest ih =>
      intro seen hn hex
      cases processItems_cons_step item0 rest seen with
      | inl hnone => exact hnone
      | inr hstep =>
          obtain ⟨fields, n0, q, hdict0, hname0, _, _, hseen0, heq⟩ := hstep
          rw [heq]
          obtain ⟨item, him, fields', hdict', hname'⟩ := hex
          have hrest : ∃ item ∈ rest, ∃ fields, item = .dict fields ∧
              dget fields "name" = some (.str n) := by
            cases him with
            | head =>
                exfalso
                rw [hdict0] at hdict'
                injection hdict' with hf
                rw [hf] at hname0
                rw [hname0] at hname'
                injection hname' with hnv
                injection hnv with hns
                rw [← hns] at hn
                exact hseen0 hn
            | tail _ hmem => exact ⟨item, hmem, fields', hdict', hname'⟩
          rw [ih (n0 :: seen) (List.mem_cons_of_mem _ hn) hrest]

theorem processItems_dup (l1 : List JVal) {item1 item2 : JVal}
    {l2 l3 : List JVal} {f1 f2 : List (String × JVal)} {n : String}
    (h1 : item1 = .dict f1) (hn1 : dget f1 "name" = some (.str n))
    (h2 : item2 = .dict f2) (hn2 : dget f2 "name" = some (.str n)) :
    ∀ seen, processItems seen (l1 ++ item1 :: (l2 ++ item2 :: l3)) = none := by
  induction l1 with
  | nil =>
      intro seen
      cases processItems_cons_step item1 (l2 ++ item2 :: l3) seen with
      | inl hnone => exact hnone
      | inr hstep =>
          obtain ⟨fields, n0, q, hdict0, hname0, _, _, _, heq⟩ := hstep
          rw [List.nil_append, heq]
          have hsame : n0 = n := by
            rw [h1] at hdict0
            injection hdict0 with hf
            rw [hf] at hn1
            rw [hname0] at hn1
            simp only [Option.some.injEq, JVal.str.injEq] at hn1
            exact hn1
          have hmem : ∃ item ∈ l2 ++ item2 :: l3, ∃ fields, item = .dict fields ∧
              dget fields "name" = some (.str n) :=
            ⟨item2, List.mem_append_right _ (List.mem_cons_self _ _), f2, h2, hn2⟩
          rw [processItems_seen_mem _ (n0 :: seen)
            (by rw [hsame]; exact List.mem_cons_self _ _) hmem]
  | cons a l1 ih =>
      intro seen
      cases processItems_cons_step a (l1 ++ item1 :: (l2 ++ item2 :: l3)) seen with
      | inl hnone => exact hnone
      | inr hstep =>
          obtain ⟨fields, n0, q, _, _, _, _, _, heq⟩ := hstep
          rw [List.cons_append, heq, ih (n0 :: seen)]

/-! ## Lemmas about the name normalizer -/

theorem toUpper_isAlpha {c : Char} (h : c.isAlpha = true) :
    c.toUpper.isAlpha = true := by
  rw [Char.toUpper]
  split
  · rename_i hn
    obtain ⟨h1, h2⟩ := hn
    generalize c.toNat = n at h1 h2
    interval_cases n <;> decide
  · exact h

theorem toLower_isAlpha {c : Char} (h : c.isAlpha = true) :
    c.toLower.isAlpha = true := by
  rw [Char.toLower]
  split
  · rename_i hn
    obtain ⟨h1, h2⟩ := hn
    generalize c.toNat = n at h1 h2
    interval_cases n <;> decide
  · exact h

theorem splitWordsAux_mem :
    ∀ (l acc w : List Char),
      (∀ c ∈ l, c.isAlpha = true ∨ c.isWhitespace = true) →
      (∀ c ∈ acc, c.isAlpha = true ∧ c.isWhitespace = false) →
      w ∈ splitWordsAux l acc →
      w ≠ [] ∧ ∀ c ∈ w, c.isAlpha = true ∧ c.isWhitespace = false := by
  intro l
  induction l with
  | nil =>
      intro acc w _ hacc hw
      rw [splitWordsAux] at hw
      by_cases ha : acc = []
      · rw [if_pos ha] at hw; cases hw
      · rw [if_neg ha] at hw
        cases hw with
        | head =>
            refine ⟨fun hh => ha (by simpa using hh), ?_⟩
            intro c hc
            exact hacc c (List.mem_reverse.mp hc)
        | tail _ hmem => cases hmem
  | cons c0 cs ih =>
      intro acc w hl hacc hw
      rw [splitWordsAux] at hw
      by_cases hws : c0.isWhitespace = true
      · rw [if_pos hws] at hw
        by_cases ha : acc = []
        · rw [if_pos ha] at hw
          exact ih [] w (fun c hc => hl c (List.mem_cons_of_mem _ hc))
            (fun c hc => absurd hc (List.not_mem_nil c)) hw
        · rw [if_neg ha] at hw
          cases hw with
          | head =>
              refine ⟨fun hh => ha (by simpa using hh), ?_⟩
              intro c hc
              exact hacc c (List.mem_reverse.mp hc)
          | tail _ hmem =>
              exact ih [] w (fun c hc => hl c (List.mem_cons_of_mem _ hc))
                (fun c hc => absurd hc (List.not_mem_nil c)) hmem
      · rw [if_neg hws] at hw
        refine ih (c0 :: acc) w (fun c hc => hl c (List.mem_cons_of_mem _ hc))
          ?_ hw
        intro c hc
        cases hc with
        | head =>
            have halpha : c0.isAlpha = true := by
              cases hl c0 (List.mem_cons_self _ _) with
              | inl hh => exact hh
              | inr hh => exact absurd hh hws
            exact ⟨halpha, by revert hws; cases c0.isWhitespace <;> simp⟩
        | tail _ hmem => exact hacc c hmem

theorem pyCapitalize_ne_nil {w : List Char} (h : w ≠ []) :
    pyCapitalize w ≠ [] := by
  cases w with
  | nil => exact absurd rfl h
  | cons c cs => simp [pyCapitalize]

theorem pyCapitalize_alpha {w : List Char}
    (h : ∀ c ∈ w, c.isAlpha = true) :
    ∀ c ∈ pyCapitalize w, c.isAlpha = true := by
  cases w with
  | nil => intro c hc; cases hc
  | cons c0 cs =>
      intro c hc
      rw [pyCapitalize] at hc
      cases hc with
      | head => exact toUpper_isAlpha (h c0 (List.mem_cons_self _ _))
      | tail _ hmem =>
          obtain ⟨x, hx, rfl⟩ := List.mem_map.mp hmem
          exact toLower_isAlpha (h x (List.mem_cons_of_mem _ hx))

theorem joinWords_single (w : List Char) : joinWords [w] = w := rfl

theorem joinWords_pair (w w' : List Char) (rest : List (List Char)) :
    joinWords (w :: w' :: rest) = w ++ ' ' :: joinWords (w' :: rest) := rfl

theorem joinWords_ne_nil {ws : List (List Char)} (h : ws ≠ [])
    (hw : ∀ w ∈ ws, w ≠ []) : joinWords ws ≠ [] := by
  cases ws with
  | nil => exact absurd rfl h
  | cons w rest =>
      cases rest with
      | nil => exact hw w (List.mem_cons_self _ _)
      | cons w' rest' =>
          rw [joinWords_pair]
          simp

theorem joinWords_chars {ws : List (List Char)}
    (h : ∀ w ∈ ws, ∀ c ∈ w, c.isAlpha = true) :
    ∀ c ∈ joinWords ws, c.isAlpha = true ∨ c = ' ' := by
  induction ws with
  | nil => intro c hc; cases hc
  | cons w rest ih =>
      cases rest with
      | nil =>
          intro c hc
          rw [joinWords_single] at hc
          exact Or.inl (h w (List.mem_cons_self _ _) c hc)
      | cons w' rest' =>
          intro c hc
          rw [joinWords_pair] at hc
          cases List.mem_append.mp hc with
          | inl hmem => exact Or.inl (h w (List.mem_cons_self _ _) c hmem)
          | inr hmem =>
              cases hmem with
              | head => exact Or.inr rfl
              | tail _ hmem2 =>
                  exact ih (fun v hv => h v (List.mem_cons_of_mem _ hv)) c hmem2

theorem mem_filter_pred {l : List Char} :
    ∀ c ∈ l.filter (fun c => c.isAlpha ∨ c.isWhitespace),
      c.isAlpha = true ∨ c.isWhitespace = true := by
  intro c hc
  exact of_decide_eq_true (List.mem_filter.mp hc).2

theorem parse_core {l : List Char} {r : String}
    (h : (if splitWordsAux l [] = [] then none
          else some (String.mk
            (joinWords ((splitWordsAux l []).map pyCapitalize)))) = some r)
    (hl : ∀ c ∈ l, c.isAlpha = true ∨ c.isWhitespace = true) :
    r ≠ "" ∧ (∀ c ∈ r.toList, c.isAlpha = true ∨ c = ' ') ∧
    ∃ ws, ws ≠ [] ∧ (∀ w ∈ ws, w ≠ [] ∧ ∀ c ∈ w, c.isAlpha = true) ∧
      r.toList = joinWords ws := by
  by_cases hsplit : splitWordsAux l [] = []
  · rw [if_pos hsplit] at h; cases h
  · rw [if_neg hsplit] at h
    injection h with hr
    have hwords : ∀ w ∈ splitWordsAux l [],
        w ≠ [] ∧ ∀ c ∈ w, c.isAlpha = true ∧ c.isWhitespace = false :=
      fun w hw => splitWordsAux_mem l [] w hl
        (fun c hc => absurd hc (List.not_mem_nil c)) hw
    have hcaps : ∀ w ∈ (splitWordsAux l []).map pyCapitalize,
        w ≠ [] ∧ ∀ c ∈ w, c.isAlpha = true := by
      intro w hw
      obtain ⟨v, hv, rfl⟩ := List.mem_map.mp hw
      exact ⟨pyCapitalize_ne_nil (hwords v hv).1,
        pyCapitalize_alpha (fun c hc => ((hwords v hv).2 c hc).1)⟩
    have hcne : (splitWordsAux l []).map pyCapitalize ≠ [] := by
      intro hh
      exact hsplit (List.map_eq_nil_iff.mp hh)
    have hjoin : joinWords ((splitWordsAux l []).map pyCapitalize) ≠ [] :=
      joinWords_ne_nil hcne (fun w hw => (hcaps w hw).1)
    have hdata : r.toList = joinWords ((splitWordsAux l []).map pyCapitalize) := by
      rw [← hr]
      rfl
    refine ⟨?_, ?_, (splitWordsAux l []).map pyCapitalize, hcne, hcaps, hdata⟩
    · intro hcontra
      apply hjoin
      have hx : String.mk (joinWords ((splitWordsAux l []).map pyCapitalize))
          = "" := hr.trans hcontra
      exact congrArg String.data hx
    · intro c hc
      rw [hdata] at hc
      exact joinWords_chars (fun w hw => (hcaps w hw).2) c hc

theorem parse_handwriting_shape {s r : String}
    (h : parse_handwriting s = some r) :
    r ≠ "" ∧ (∀ c ∈ r.toList, c.isAlpha = true ∨ c = ' ') ∧
    ∃ ws, ws ≠ [] ∧ (∀ w ∈ ws, w ≠ [] ∧ ∀ c ∈ w, c.isAlpha = true) ∧
      r.toList = joinWords ws := by
  simp only [parse_handwriting] at h
  cases hall : s.toList.all Char.isWhitespace with
  | true => rw [if_pos hall] at h; cases h
  | false =>
      rw [if_neg (by rw [hall]; exact Bool.false_ne_true)] at h
      exact parse_core h mem_filter_pred

/-! ## Unfolding the summary route -/

theorem summarize_eq_run {store : Store} {name dn : String}
    {items : List RequiredItem} (hname : ¬ name = "")
    (hlook : lookup store name = some (.recipe dn items)) (fuel : Nat) :
    summarize store name fuel =
      (match run store ⟨[(.recipe dn items, 1)], [], 0⟩ fuel with
       | .ok c t => some ⟨dn, t, sortPairs c⟩
       | _ => none) := by
  rw [summarize, if_neg hname]
  simp only [hlook]

/-! ## Acyclicity of the example store -/

theorem acc_of_ingredient (store : Store) (a dn : String) (ct : Nat)
    (hlook : lookup store a = some (.ingredient dn ct)) :
    Acc (childRel store) a := by
  constructor
  intro b hb
  obtain ⟨dn', items', it, hlook', _, _⟩ := hb
  rw [hlook] at hlook'
  injection hlook' with hh
  cases hh

theorem childRel_concrete {store : Store} {b a dn : String}
    {items : List RequiredItem}
    (hlook : lookup store a = some (.recipe dn items)) (h : childRel store b a) :
    ∃ it ∈ items, it.name = b := by
  obtain ⟨dn', items', it, hlook', hmem, hname⟩ := h
  rw [hlook] at hlook'
  injection hlook' with hh
  injection hh with h1 h2
  rw [h2]
  exact ⟨it, hmem, hname⟩

theorem acc_c1_batter : Acc (childRel storeC1) "Batter" := by
  constructor
  intro b hb
  obtain ⟨it, hmem, hname⟩ := childRel_concrete
    (show lookup storeC1 "Batter"
      = some (.recipe "Batter" [⟨"Egg", 2⟩, ⟨"Flour", 1⟩]) by decide) hb
  cases hmem with
  | head =>
      rw [← hname]
      exact acc_of_ingredient storeC1 "Egg" "Egg" 5 (by decide)
  | tail _ hmem2 =>
      cases hmem2 with
      | head =>
          rw [← hname]
          exact acc_of_ingredient storeC1 "Flour" "Flour" 2 (by decide)
      | tail _ hmem3 => cases hmem3

theorem acc_c1_pancake : Acc (childRel storeC1) "Pancake" := by
  constructor
  intro b hb
  obtain ⟨it, hmem, hname⟩ := childRel_concrete
    (show lookup storeC1 "Pancake"
      = some (.recipe "Pancake" [⟨"Batter", 3⟩]) by decide) hb
  cases hmem with
  | head =>
      rw [← hname]
      exact acc_c1_batter
  | tail _ hmem2 => cases hmem2

theorem resolvable_c1 : Resolvable storeC1 := by
  intro a dn items hlook it hit
  simp only [storeC1, lookup] at hlook
  split_ifs at hlook with h1 h2 h3 h4
  · cases hlook
  · cases hlook
  · injection hlook with hh
    injection hh with hdn hitems
    rw [← hitems] at hit
    cases hit with
    | head => decide
    | tail _ hmem =>
        cases hmem with
        | head => decide
        | tail _ hmem2 => cases hmem2
  · injection hlook with hh
    injection hh with hdn hitems
    rw [← hitems] at hit
    cases hit with
    | head => decide
    | tail _ hmem => cases hmem

/-! ## The claims -/

/-- C1: with Ingredient `Egg`(cookTime 5), Ingredient `Flour`(cookTime 2),
Recipe `Batter` requiring `Egg`×2 and `Flour`×1, and Recipe `Pancake`
requiring `Batter`×3 in the store, `summarize "Pancake"` succeeds (under any
sufficient fuel) and returns `cookTime = 36` and
`ingredients = [("Egg", 6), ("Flour", 3)]` in that lexicographically sorted
order. -/
theorem pancake_summary_correct (f : Nat) :
    summarize storeC1 "Pancake" (6 + f)
      = some ⟨"Pancake", 36, [("Egg", 6), ("Flour", 3)]⟩ := by
  have h6 : run storeC1 ⟨[(.recipe "Pancake" [⟨"Batter", 3⟩], 1)], [], 0⟩ 6
      = .ok [("Egg", 6), ("Flour", 3)] 36 := by decide
  have hm := run_mono h6 (6 + f) (by omega)
  rw [summarize_eq_run (by decide)
    (show lookup storeC1 "Pancake" = some (.recipe "Pancake" [⟨"Batter", 3⟩])
      by decide) (6 + f), hm]
  decide

/-- C2: `summarize` rejects (returns `none`, no partial summary) whenever the
name is not a key of the store, whenever the key maps to an Ingredient rather
than a Recipe, and the traversal raises (so the route rejects) whenever a
popped recipe has a required item whose name is absent from the store; in
particular `summarize "Soup"` rejects on the store where Recipe `Soup`
requires `Stock`×1 and `Stock` was never created. -/
theorem summarize_rejects :
    (∀ (store : Store) (name : String) (f : Nat), lookup store name = none →
       summarize store name f = none) ∧
    (∀ (store : Store) (name dn : String) (ct f : Nat),
       lookup store name = some (.ingredient dn ct) →
       summarize store name f = none) ∧
    (∀ (store : Store) (dn : String) (items : List RequiredItem) (m : Nat)
       (rest : List (Entry × Nat)) (c : Counts) (t f : Nat),
       (∃ it ∈ items, lookup store it.name = none) →
       ∃ msg, run store ⟨(.recipe dn items, m) :: rest, c, t⟩ (f + 1)
         = .err msg) ∧
    (∀ f, summarize soupStore "Soup" f = none) := by
  refine ⟨?_, ?_, ?_, ?_⟩
  · intro store name f h
    rw [summarize]
    by_cases hn : name = ""
    · rw [if_pos hn]
    · rw [if_neg hn]
      simp only [h]
  · intro store name dn ct f h
    rw [summarize]
    by_cases hn : name = ""
    · rw [if_pos hn]
    · rw [if_neg hn]
      simp only [h]
  · intro store dn items m rest c t f h
    obtain ⟨msg, hpm⟩ := pushItems_missing h m rest
    refine ⟨msg, ?_⟩
    simp only [run, step_rec, hpm]
  · intro f
    cases f with
    | zero => rfl
    | succ f =>
        rw [summarize_eq_run (by decide)
          (show lookup soupStore "Soup" = some (.recipe "Soup" [⟨"Stock", 1⟩])
            by decide) (f + 1)]
        have hstep : step soupStore
            ⟨[(.recipe "Soup" [⟨"Stock", 1⟩], 1)], [], 0⟩
            = .err "Missing item: Stock" := by decide
        simp only [run, hstep]

/-- Witness for C2 at concrete inputs: an absent key, an ingredient key, the
one-step missing-reference failure, and the `Soup` example. -/
theorem summarize_rejects_witness :
    summarize [] "Nothing" 5 = none ∧
    summarize [("Egg", Entry.ingredient "Egg" 5)] "Egg" 5 = none ∧
    (∃ msg, run soupStore
      ⟨[(Entry.recipe "Soup" [⟨"Stock", 1⟩], 1)], [], 0⟩ (0 + 1) = .err msg) ∧
    summarize soupStore "Soup" 7 = none :=
  ⟨summarize_rejects.1 [] "Nothing" 5 (by decide),
   summarize_rejects.2.1 [("Egg", Entry.ingredient "Egg" 5)] "Egg" "Egg" 5 5
     (by decide),
   summarize_rejects.2.2.1 soupStore "Soup" [⟨"Stock", 1⟩] 1 [] [] 0 0
     ⟨⟨"Stock", 1⟩, by decide, by decide⟩,
   summarize_rejects.2.2.2 7⟩

/-- C3: on every store whose composition graph reachable from the root is
acyclic (the root is accessible for the direct-dependency relation) and whose
recipe references all resolve, the traversal terminates with a result; the
guarantee needs acyclicity — on `cycStore`, whose recipe `A` requires itself,
the machine steps forever (never completing, never raising) and the work list
grows without bound: after `k` iterations it holds `k + 1` entries. -/
theorem traversal_terminates_iff_acyclic :
    (∀ (store : Store) (root dn : String) (items : List RequiredItem),
       Acc (childRel store) root → Resolvable store →
       lookup store root = some (.recipe dn items) →
       ∃ f c t, run store ⟨[(.recipe dn items, 1)], [], 0⟩ f = .ok c t) ∧
    childRel cycStore "A" "A" ∧
    (∀ k, stepN cycStore (cycState 0) k = some (cycState k) ∧
       (cycState k).stack.length = k + 1) ∧
    (∀ f, run cycStore (cycState 0) f = .out) := by
  refine ⟨?_, ?_, ?_, ?_⟩
  · intro store root dn items hacc hres hlook
    exact term_single hacc hres _ hlook 1 [] 0
  · exact ⟨"A", [⟨"A", 1⟩, ⟨"B", 1⟩], ⟨"A", 1⟩, by decide, by decide, rfl⟩
  · intro k
    constructor
    · have := cyc_stepN k 0
      rwa [Nat.zero_add] at this
    · simp [cycState]
  · intro f
    exact cyc_run_out f 0

/-- Witness for C3: the acyclic example store's traversal of `Pancake`
terminates. -/
theorem traversal_terminates_witness :
    ∃ f c t, run storeC1
      ⟨[(Entry.recipe "Pancake" [⟨"Batter", 3⟩], 1)], [], 0⟩ f = .ok c t :=
  traversal_terminates_iff_acyclic.1 storeC1 "Pancake" "Pancake"
    [⟨"Batter", 3⟩] acc_c1_pancake resolvable_c1 (by decide)

theorem create_fallback_ingredient (store : Store) (d : Req) (s : String)
    (c : Int) (hty : dget d "type" = some (.str "ingredient"))
    (hname : dget d "name" = some (.str s))
    (hct : dget d "cookTime" = some (.int c)) (hc : ¬ c < 0)
    (hkey : hasKey store s = false) (hp : parse_handwriting s = none) :
    create_entry store d = ((s, .ingredient s c.toNat) :: store, 200) := by
  have hv := validate_ingredient_ok hty hname hct hc hkey
  rw [hp] at hv
  exact create_entry_of_validate_some hv

theorem create_fallback_recipe (store : Store) (d : Req) (s : String)
    (items : List JVal) (ritems : List RequiredItem)
    (hty : dget d "type" = some (.str "recipe"))
    (hname : dget d "name" = some (.str s))
    (hri : dget d "requiredItems" = some (.list items))
    (hpi : processItems [] items = some ritems)
    (hkey : hasKey store s = false) (hp : parse_handwriting s = none) :
    create_entry store d = ((s, .recipe s ritems) :: store, 200) := by
  have hv := validate_recipe_ok hty hname hri hpi hkey
  rw [hp] at hv
  exact create_entry_of_validate_some hv

/-- C4: a creation request that passes every other validation but whose name
the normalizer rejects is still created, and the stored display name is the
raw request name verbatim — the normalization failure is non-fatal, on both
the ingredient and the recipe path. -/
theorem normalize_failure_nonfatal :
    (∀ (store : Store) (d : Req) (s : String) (c : Int),
       dget d "type" = some (.str "ingredient") →
       dget d "name" = some (.str s) →
       dget d "cookTime" = some (.int c) → ¬ c < 0 →
       hasKey store s = false → parse_handwriting s = none →
       create_entry store d = ((s, .ingredient s c.toNat) :: store, 200)) ∧
    (∀ (store : Store) (d : Req) (s : String) (items : List JVal)
       (ritems : List RequiredItem),
       dget d "type" = some (.str "recipe") →
       dget d "name" = some (.str s) →
       dget d "requiredItems" = some (.list items) →
       processItems [] items = some ritems →
       hasKey store s = false → parse_handwriting s = none →
       create_entry store d = ((s, .recipe s ritems) :: store, 200)) :=
  ⟨create_fallback_ingredient, create_fallback_recipe⟩

/-- Witness for C4: a digits-only name (which the normalizer rejects) is
created verbatim, on both paths. -/
theorem normalize_failure_nonfatal_witness :
    create_entry []
      [("type", .str "ingredient"), ("name", .str "123"), ("cookTime", .int 7)]
      = ([("123", Entry.ingredient "123" 7)], 200) ∧
    create_entry []
      [("type", .str "recipe"), ("name", .str "55"), ("requiredItems", .list [])]
      = ([("55", Entry.recipe "55" [])], 200) :=
  ⟨normalize_failure_nonfatal.1 []
     [("type", .str "ingredient"), ("name", .str "123"), ("cookTime", .int 7)]
     "123" 7 rfl rfl rfl (by decide) rfl (by decide),
   normalize_failure_nonfatal.2 []
     [("type", .str "recipe"), ("name", .str "55"), ("requiredItems", .list [])]
     "55" [] [] rfl rfl rfl rfl rfl (by decide)⟩

/-- C5 counterexample: a creation request whose name is the empty string (and
which otherwise validates) is NOT rejected: it is accepted with status 200 and
the entity is inserted into the store, keyed and displayed as the empty
string. -/
theorem empty_name_accepted :
    create_entry []
      [("type", .str "ingredient"), ("name", .str ""), ("cookTime", .int 1)]
      = ([("", Entry.ingredient "" 1)], 200) := by decide

/-- C5 (amended): a creation request missing its `name` (or `type`) field is
rejected with no state change; but a present name that is empty,
whitespace-only, or normalizes to empty does not cause rejection — when the
rest of validation passes, the entity is created with the raw name stored
verbatim. -/
theorem malformed_name_handling :
    (∀ (store : Store) (d : Req), dget d "name" = none →
       create_entry store d = (store, 400)) ∧
    (∀ (store : Store) (d : Req), dget d "type" = none →
       create_entry store d = (store, 400)) ∧
    (∀ (store : Store) (d : Req) (s : String) (c : Int),
       dget d "type" = some (.str "ingredient") →
       dget d "name" = some (.str s) →
       dget d "cookTime" = some (.int c) → ¬ c < 0 →
       hasKey store s = false → parse_handwriting s = none →
       create_entry store d = ((s, .ingredient s c.toNat) :: store, 200)) :=
  ⟨fun _ _ h => create_entry_of_validate_none (validate_no_name h),
   fun _ _ h => create_entry_of_validate_none (validate_no_type h),
   create_fallback_ingredient⟩

/-- Witness for C5: a nameless request is rejected leaving the store as it
was; a whitespace-only name is accepted and stored verbatim. -/
theorem malformed_name_handling_witness :
    create_entry [] [("type", .str "ingredient"), ("cookTime", .int 3)]
      = ([], 400) ∧
    create_entry [] [("name", .str "Y")] = ([], 400) ∧
    create_entry []
      [("type", .str "ingredient"), ("name", .str "   "), ("cookTime", .int 2)]
      = ([("   ", Entry.ingredient "   " 2)], 200) :=
  ⟨malformed_name_handling.1 []
     [("type", .str "ingredient"), ("cookTime", .int 3)] rfl,
   malformed_name_handling.2.1 [] [("name", .str "Y")] rfl,
   malformed_name_handling.2.2 []
     [("type", .str "ingredient"), ("name", .str "   "), ("cookTime", .int 2)]
     "   " 2 rfl rfl rfl (by decide) rfl (by decide)⟩

/-- C6: expansion linearity.  In any store, let recipe `P` (display name
`pdisp`) require `pre ++ [R×q] ++ post` where the name `rname` resolves to
entity `entR` and every referenced name resolves.  If the `pre` segment, `R`
standalone (multiplier 1), and the `post` segment each run to completion from
a fresh state, then `P`'s traversal completes and every ingredient count in
`P`'s summary is the `pre` contribution plus `q` times `R`'s standalone count
plus the `post` contribution — and likewise the cook time is
`tA + q * tR + tB`. -/
theorem expansion_linearity (store : Store) (pdisp rname : String)
    (pre post : List RequiredItem) (q : Nat) (entR : Entry)
    (cA cR cB : Counts) (tA tR tB fA fR fB : Nat)
    (hres : ∀ it ∈ pre ++ ⟨rname, q⟩ :: post,
      (lookup store it.name).isSome = true)
    (hR : lookup store rname = some entR)
    (hA : run store ⟨stackMap store 1 pre, [], 0⟩ fA = .ok cA tA)
    (hRrun : run store ⟨[(entR, 1)], [], 0⟩ fR = .ok cR tR)
    (hB : run store ⟨stackMap store 1 post, [], 0⟩ fB = .ok cB tB) :
    ∃ F cP,
      run store ⟨[(.recipe pdisp (pre ++ ⟨rname, q⟩ :: post), 1)], [], 0⟩ F
        = .ok cP (tA + q * tR + tB) ∧
      ∀ n, countOf cP n
        = countOf cA n + q * countOf cR n + countOf cB n := by
  obtain ⟨cq, tq, hq, hqt, hqc⟩ := run_scale hRrun q [] 0
  rw [show scaleStack q [(entR, 1)] = [(entR, q * 1)] from rfl,
    Nat.mul_one] at hq
  have htq : tq = q * tR := by
    simp only [Nat.mul_zero, Nat.add_zero, Nat.zero_add] at hqt
    omega
  have hcq : ∀ n, countOf cq n = q * countOf cR n := by
    intro n
    have := hqc n
    simp only [countOf, Nat.mul_zero, Nat.add_zero, Nat.zero_add] at this
    omega
  obtain ⟨c2, t2, h2, h2t, h2c⟩ := run_shift hq cA tA
  obtain ⟨c3, t3, h3, h3t, h3c⟩ := run_shift hB c2 t2
  have hseg2 := run_append h2 h3
  have hseg := run_append hA hseg2
  have hpush : pushItems store 1 (pre ++ ⟨rname, q⟩ :: post) []
      = .ok (stackMap store 1 (pre ++ ⟨rname, q⟩ :: post)) := by
    have := @pushItems_ok_eq store 1 (pre ++ ⟨rname, q⟩ :: post) [] hres
    rwa [List.append_nil] at this
  have hstackeq : stackMap store 1 (pre ++ ⟨rname, q⟩ :: post)
      = stackMap store 1 pre ++ ([(entR, q)] ++ stackMap store 1 post) := by
    simp only [stackMap, List.map_append, List.map_cons, List.singleton_append]
    simp [resolveD, hR, Nat.one_mul]
  have ht3 : t3 = tA + q * tR + tB := by
    simp only [Nat.add_zero, Nat.zero_add] at h2t h3t
    omega
  refine ⟨fA + (fR + fB) + 1, c3, ?_, ?_⟩
  · simp only [run, step_rec, hpush, hstackeq]
    rw [← ht3]
    exact hseg
  · intro n
    have ha2 := h2c n
    have ha3 := h3c n
    have haq := hcq n
    simp only [countOf] at ha2 ha3
    omega

/-- Witness for C6: in the example store, `Pancake` requires `Batter`×3, and
every `Pancake` ingredient count is 3 times `Batter`'s standalone count
(`Egg`: 3×2, `Flour`: 3×1), with cook time `0 + 3 × 12 + 0`. -/
theorem expansion_linearity_witness :
    ∃ F cP,
      run storeC1 ⟨[(.recipe "Pancake" ([] ++ ⟨"Batter", 3⟩ :: []), 1)], [], 0⟩ F
        = .ok cP (0 + 3 * 12 + 0) ∧
      ∀ n, countOf cP n
        = countOf ([] : Counts) n + 3 * countOf [("Egg", 2), ("Flour", 1)] n
          + countOf ([] : Counts) n :=
  expansion_linearity storeC1 "Pancake" "Batter" [] [] 3
    (.recipe "Batter" [⟨"Egg", 2⟩, ⟨"Flour", 1⟩]) [] [("Egg", 2), ("Flour", 1)]
    [] 0 12 0 1 4 1
    (by decide) (by decide) (by decide) (by decide) (by decide)

/-- C7: the normalizer maps `"mayonnaise"` to `"Mayonnaise"` and
`"butter_-_-_knife"` to `"Butter Knife"`, rejects `"    "`, maps
`"4-Step Recipe"` to `"Step Recipe"`; and every accepted result is non-empty
and consists of non-empty words of letters joined by single interior
spaces (so every character is a letter or a single interior space). -/
theorem normalizer_properties :
    parse_handwriting "mayonnaise" = some "Mayonnaise" ∧
    parse_handwriting "butter_-_-_knife" = some "Butter Knife" ∧
    parse_handwriting "    " = none ∧
    parse_handwriting "4-Step Recipe" = some "Step Recipe" ∧
    ∀ s r, parse_handwriting s = some r →
      r ≠ "" ∧ (∀ c ∈ r.toList, c.isAlpha = true ∨ c = ' ') ∧
      ∃ ws, ws ≠ [] ∧ (∀ w ∈ ws, w ≠ [] ∧ ∀ c ∈ w, c.isAlpha = true) ∧
        r.toList = joinWords ws :=
  ⟨by decide, by decide, by decide, by decide,
   fun _ _ h => parse_handwriting_shape h⟩

/-- Witness for C7's universal part at the input `"mayonnaise"`. -/
theorem normalizer_properties_witness :
    ("Mayonnaise" : String) ≠ "" ∧
    (∀ c ∈ ("Mayonnaise" : String).toList, c.isAlpha = true ∨ c = ' ') ∧
    ∃ ws, ws ≠ [] ∧ (∀ w ∈ ws, w ≠ [] ∧ ∀ c ∈ w, c.isAlpha = true) ∧
      ("Mayonnaise" : String).toList = joinWords ws :=
  normalizer_properties.2.2.2.2 "mayonnaise" "Mayonnaise" (by decide)

/-- C8: after a successful creation, any second creation request carrying the
same raw name is rejected — whatever the types of the two requests — and the
rejected attempt leaves the store exactly as the first creation left it. -/
theorem duplicate_name_rejected :
    ∀ (store : Store) (d1 d2 : Req) (st1 : Store),
      create_entry store d1 = (st1, 200) →
      dget d2 "name" = dget d1 "name" →
      create_entry st1 d2 = (st1, 400) := by
  intro store d1 d2 st1 h1 hsame
  obtain ⟨raw, e, hv, rfl⟩ := create_entry_200 h1
  obtain ⟨hname1, _⟩ := validate_some_name hv
  have hname2 : dget d2 "name" = some (.str raw) := hsame.trans hname1
  apply create_entry_of_validate_none
  cases hty2 : dget d2 "type" with
  | none => exact validate_no_type hty2
  | some ty =>
      refine validate_dup hty2 hname2 ?_
      simp [hasKey, lookup]

/-- Witness for C8: create ingredient `Jam`, then a recipe named `Jam` is
rejected with the store unchanged (different types on the two requests). -/
theorem duplicate_name_rejected_witness :
    create_entry [("Jam", Entry.ingredient "Jam" 1)]
      [("type", .str "recipe"), ("name", .str "Jam"), ("requiredItems", .list [])]
      = ([("Jam", Entry.ingredient "Jam" 1)], 400) :=
  duplicate_name_rejected []
    [("type", .str "ingredient"), ("name", .str "Jam"), ("cookTime", .int 1)]
    [("type", .str "recipe"), ("name", .str "Jam"), ("requiredItems", .list [])]
    [("Jam", Entry.ingredient "Jam" 1)] (by decide) rfl

/-- C9: a recipe creation request whose `requiredItems` contains two entries
with the same name is rejected (whatever the quantities), for every store;
and the duplicate check consults only the request: a recipe with distinct
item names is accepted whatever the store holds (the referenced names need
not exist). -/
theorem duplicate_required_items_rejected :
    (∀ (store : Store) (d : Req) (l1 l2 l3 : List JVal)
       (f1 f2 : List (String × JVal)) (n : String),
       dget d "type" = some (.str "recipe") →
       dget d "requiredItems"
         = some (.list (l1 ++ .dict f1 :: (l2 ++ .dict f2 :: l3))) →
       dget f1 "name" = some (.str n) → dget f2 "name" = some (.str n) →
       create_entry store d = (store, 400)) ∧
    (∀ (store : Store) (d : Req) (s : String) (items : List JVal)
       (ritems : List RequiredItem),
       dget d "type" = some (.str "recipe") →
       dget d "name" = some (.str s) →
       dget d "requiredItems" = some (.list items) →
       processItems [] items = some ritems →
       hasKey store s = false →
       create_entry store d
         = ((s, .recipe (pyOrRaw (parse_handwriting s) s) ritems) :: store,
            200)) := by
  constructor
  · intro store d l1 l2 l3 f1 f2 n hty hri hn1 hn2
    apply create_entry_of_validate_none
    cases hname : dget d "name" with
    | none => exact validate_no_name hname
    | some nm =>
        rw [validate_eq_main (dget_ne_nil hty) hty hname]
        cases hkey : nameInStore store nm with
        | true => simp [hkey]
        | false =>
            simp only [hkey, Bool.false_eq_true, if_false]
            show (if ("recipe" : String) = "ingredient" then
                process_ingredient d
              else if ("recipe" : String) = "recipe" then process_recipe d
              else none) = none
            rw [if_neg (by decide : ¬ ("recipe" : String) = "ingredient"),
              if_pos (rfl : ("recipe" : String) = "recipe")]
            have hnone := @processItems_dup l1 (JVal.dict f1) (JVal.dict f2)
              l2 l3 f1 f2 n rfl hn1 rfl hn2 []
            simp only [process_recipe, hri, hnone]
  · intro store d s items ritems hty hname hri hpi hkey
    exact create_entry_of_validate_some
      (validate_recipe_ok hty hname hri hpi hkey)

/-- Witness for C9: a recipe repeating the item name `Egg` with different
quantities is rejected; a recipe referencing a name absent from the store is
accepted. -/
theorem duplicate_required_items_rejected_witness :
    create_entry []
      [("type", .str "recipe"), ("name", .str "Cake"),
       ("requiredItems", .list
         [.dict [("name", .str "Egg"), ("quantity", .int 1)],
          .dict [("name", .str "Egg"), ("quantity", .int 2)]])]
      = ([], 400) ∧
    create_entry []
      [("type", .str "recipe"), ("name", .str "Pie"),
       ("requiredItems", .list
         [.dict [("name", .str "Unicorn"), ("quantity", .int 2)]])]
      = ([("Pie", Entry.recipe "Pie" [⟨"Unicorn", 2⟩])], 200) :=
  ⟨duplicate_required_items_rejected.1 []
     [("type", .str "recipe"), ("name", .str "Cake"),
      ("requiredItems", .list
        [.dict [("name", .str "Egg"), ("quantity", .int 1)],
         .dict [("name", .str "Egg"), ("quantity", .int 2)]])]
     [] [] [] [("name", .str "Egg"), ("quantity", .int 1)]
     [("name", .str "Egg"), ("quantity", .int 2)] "Egg" rfl rfl rfl rfl,
   duplicate_required_items_rejected.2 []
     [("type", .str "recipe"), ("name", .str "Pie"),
      ("requiredItems", .list
        [.dict [("name", .str "Unicorn"), ("quantity", .int 2)]])]
     "Pie" [.dict [("name", .str "Unicorn"), ("quantity", .int 2)]]
     [⟨"Unicorn", 2⟩] rfl rfl rfl rfl rfl⟩

/-- C10: a creation request whose `type` field is present but neither the
string `"ingredient"` nor the string `"recipe"` is rejected and leaves the
store unchanged. -/
theorem unknown_type_rejected :
    ∀ (store : Store) (d : Req) (v : JVal),
      dget d "type" = some v →
      v ≠ .str "ingredient" → v ≠ .str "recipe" →
      create_entry store d = (store, 400) :=
  fun _ _ _ hty hing hrec =>
    create_entry_of_validate_none (validate_bad_type hty hing hrec)

/-- Witness for C10: the type tag `"drink"` is rejected with no state
change. -/
theorem unknown_type_rejected_witness :
    create_entry [] [("type", .str "drink"), ("name", .str "Cola")]
      = ([], 400) :=
  unknown_type_rejected [] [("type", .str "drink"), ("name", .str "Cola")]
    (.str "drink") rfl
    (fun h => by injection h with hh; exact absurd hh (by decide))
    (fun h => by injection h with hh; exact absurd hh (by decide))
